/-
Verification of the conversation-analyzer segmentation-and-analytics engine.

Shallow embedding of `src/conversation_analyzer/vad.py` and
`src/conversation_analyzer/stats.py`.  Timestamps and durations are embedded
as rationals (Python floats are used only as exact arithmetic on these code
paths); raw audio samples and RMS energies are embedded as reals because the
source computes `np.sqrt`.  Fallible code (Python exceptions: numpy reshape
errors, ZeroDivisionError) is embedded in `Except`.  Python `int(x)`
truncates toward zero and `//` is floor division; both are modelled exactly.
-/
import Mathlib

/-! ## Data model (stats.py dataclasses) -/

/-- A contiguous segment of detected speech (vad.SpeechSegment). -/
structure SpeechSegment where
  start_sec : ℚ
  end_sec : ℚ
deriving DecidableEq

/-- Property `SpeechSegment.duration_sec` from the source. -/
def SpeechSegment.duration_sec (s : SpeechSegment) : ℚ :=
  s.end_sec - s.start_sec

/-- A speaking turn by one speaker (stats.Turn).  The source field `end` is
renamed `stop` because `end` is a Lean keyword. -/
structure Turn where
  speaker : String
  start : ℚ
  stop : ℚ
deriving DecidableEq

/-- Property `Turn.duration` from the source. -/
def Turn.duration (t : Turn) : ℚ :=
  t.stop - t.start

/-- An interruption event (stats.Interruption). -/
structure Interruption where
  interrupter : String
  interrupted : String
  start_time : ℚ
  yielding_latency : ℚ
deriving DecidableEq

/-- Statistics for a single speaker (stats.SpeakerStats); the distributional
properties of the dataclass are separate functions below. -/
structure SpeakerStats where
  label : String
  total_talk_time : ℚ
  talk_time_pct : ℚ
  num_turns : ℕ
  turn_durations : List ℚ
  response_times : List ℚ
  interruptions_made : ℕ
  times_interrupted : ℕ
  yielding_latencies : List ℚ
deriving DecidableEq

/-- All computed conversation metrics (stats.ConversationStats). -/
structure ConversationStats where
  duration_sec : ℚ
  speaker_a : SpeakerStats
  speaker_b : SpeakerStats
  turns : List Turn
  interruptions : List Interruption
  total_overlap_sec : ℚ
  overlap_pct : ℚ
  total_silence_sec : ℚ
  silence_pct : ℚ
  num_pauses : ℕ
  avg_pause_duration : ℚ
  longest_pause : ℚ
deriving DecidableEq

/-! ## numpy helpers used by the SpeakerStats properties -/

/-- np.mean of a list (the callers guard against the empty list). -/
def npMean (l : List ℚ) : ℚ := l.sum / l.length

/-- np.median: middle of the sorted list, or the mean of the two middles. -/
def npMedian (l : List ℚ) : ℚ :=
  let s := l.mergeSort (fun x y => decide (x ≤ y))
  let n := s.length
  if n % 2 = 1 then s.getD (n / 2) 0
  else (s.getD (n / 2 - 1) 0 + s.getD (n / 2) 0) / 2

/-- np.min of a nonempty list (0 as a dummy for the guarded empty case). -/
def npMin : List ℚ → ℚ
  | [] => 0
  | x :: xs => xs.foldl min x

/-- np.max of a nonempty list / Python builtin max (dummy 0 when empty). -/
def npMax : List ℚ → ℚ
  | [] => 0
  | x :: xs => xs.foldl max x

/-- Population variance, the square of np.std (ddof = 0). -/
def npVar (l : List ℚ) : ℚ :=
  ((l.map (fun x => (x - npMean l) ^ 2)).sum) / l.length

/-- Property `SpeakerStats.avg_turn_duration`. -/
def avg_turn_duration (s : SpeakerStats) : ℚ :=
  if s.turn_durations = [] then 0 else npMean s.turn_durations

/-- Property `SpeakerStats.median_turn_duration`. -/
def median_turn_duration (s : SpeakerStats) : ℚ :=
  if s.turn_durations = [] then 0 else npMedian s.turn_durations

/-- Property `SpeakerStats.min_turn_duration`. -/
def min_turn_duration (s : SpeakerStats) : ℚ :=
  if s.turn_durations = [] then 0 else npMin s.turn_durations

/-- Property `SpeakerStats.max_turn_duration`. -/
def max_turn_duration (s : SpeakerStats) : ℚ :=
  if s.turn_durations = [] then 0 else npMax s.turn_durations

/-- Property `SpeakerStats.avg_response_time`. -/
def avg_response_time (s : SpeakerStats) : ℚ :=
  if s.response_times = [] then 0 else npMean s.response_times

/-- Property `SpeakerStats.median_response_time`. -/
def median_response_time (s : SpeakerStats) : ℚ :=
  if s.response_times = [] then 0 else npMedian s.response_times

/-- Property `SpeakerStats.std_response_time` (np.std takes a square root,
hence the value lives in the reals). -/
noncomputable def std_response_time (s : SpeakerStats) : ℝ :=
  if s.response_times = [] then 0 else Real.sqrt (npVar s.response_times)

/-- Property `SpeakerStats.min_response_time`. -/
def min_response_time (s : SpeakerStats) : ℚ :=
  if s.response_times = [] then 0 else npMin s.response_times

/-- Property `SpeakerStats.max_response_time`. -/
def max_response_time (s : SpeakerStats) : ℚ :=
  if s.response_times = [] then 0 else npMax s.response_times

/-- Property `SpeakerStats.avg_yielding_latency`. -/
def avg_yielding_latency (s : SpeakerStats) : ℚ :=
  if s.yielding_latencies = [] then 0 else npMean s.yielding_latencies

/-- Property `SpeakerStats.median_yielding_latency`. -/
def median_yielding_latency (s : SpeakerStats) : ℚ :=
  if s.yielding_latencies = [] then 0 else npMedian s.yielding_latencies

/-- Property `SpeakerStats.std_yielding_latency`. -/
noncomputable def std_yielding_latency (s : SpeakerStats) : ℝ :=
  if s.yielding_latencies = [] then 0 else Real.sqrt (npVar s.yielding_latencies)

/-- Property `SpeakerStats.min_yielding_latency`. -/
def min_yielding_latency (s : SpeakerStats) : ℚ :=
  if s.yielding_latencies = [] then 0 else npMin s.yielding_latencies

/-- Property `SpeakerStats.max_yielding_latency`. -/
def max_yielding_latency (s : SpeakerStats) : ℚ :=
  if s.yielding_latencies = [] then 0 else npMax s.yielding_latencies

/-! ## Turn builder (stats._build_turns) -/

/-- The fold of `_build_turns`, phrased with the open turn as explicit state:
the source keeps the open turn as `turns[-1]` and rewrites it in place. -/
def turnFold : Option Turn → List (ℚ × ℚ × String) → List Turn
  | none, [] => []
  | some t, [] => [t]
  | none, (s, e, sp) :: rest => turnFold (some ⟨sp, s, e⟩) rest
  | some t, (s, e, sp) :: rest =>
    if t.speaker = sp then turnFold (some ⟨sp, t.start, max t.stop e⟩) rest
    else t :: turnFold (some ⟨sp, s, e⟩) rest

/-- stats._build_turns: pool both speakers' segments, stable-sort by start
time, then fold same-speaker runs into single turns. -/
def build_turns (segments_a segments_b : List SpeechSegment)
    (label_a label_b : String) : List Turn :=
  let events : List (ℚ × ℚ × String) :=
    (segments_a.map (fun s => (s.start_sec, s.end_sec, label_a))) ++
      (segments_b.map (fun s => (s.start_sec, s.end_sec, label_b)))
  turnFold none (events.mergeSort (fun e f => decide (e.1 ≤ f.1)))

/-! ## Response times (stats._compute_response_times) -/

/-- stats._compute_response_times: walk adjacent turn pairs; a strictly
positive gap between different speakers is appended to the list of the
speaker of the new turn (first component: label_a, second: the other). -/
def compute_response_times : List Turn → String → List ℚ × List ℚ
  | prev :: curr :: rest, label_a =>
    let tailRes := compute_response_times (curr :: rest) label_a
    if prev.speaker = curr.speaker then tailRes
    else
      let gap := curr.start - prev.stop
      if gap ≤ 0 then tailRes
      else if curr.speaker = label_a then (gap :: tailRes.1, tailRes.2)
      else (tailRes.1, gap :: tailRes.2)
  | _, _ => ([], [])

/-! ## Interruption detector (stats._detect_interruptions) -/

/-- The inner loop with `break`: the first segment of `ys` that the start of
`sx` falls strictly inside. -/
def findInterrupted (sx : SpeechSegment) (ys : List SpeechSegment) :
    Option SpeechSegment :=
  ys.find? (fun sy =>
    decide (sy.start_sec < sx.start_sec ∧ sx.start_sec < sy.end_sec))

/-- One direction of the detector: each segment of `xs` (the interrupter,
labelled `lx`) yields at most one event, against the first matching segment
of `ys` (the interrupted, labelled `ly`). -/
def interruptionsOneWay (xs ys : List SpeechSegment) (lx ly : String) :
    List Interruption :=
  xs.filterMap (fun sx =>
    (findInterrupted sx ys).map (fun sy =>
      ⟨lx, ly, sx.start_sec, sy.end_sec - sx.start_sec⟩))

/-- stats._detect_interruptions: B-interrupting-A events first, then
A-interrupting-B, stable-sorted by start time. -/
def detect_interruptions (segments_a segments_b : List SpeechSegment)
    (label_a label_b : String) : List Interruption :=
  (interruptionsOneWay segments_b segments_a label_b label_a ++
      interruptionsOneWay segments_a segments_b label_a label_b).mergeSort
    (fun i j => decide (i.start_time ≤ j.start_time))

/-! ## Overlap (stats._compute_overlap) -/

/-- stats._compute_overlap: sum of positive pairwise intersections. -/
def compute_overlap (segments_a segments_b : List SpeechSegment) : ℚ :=
  (segments_a.map (fun sa =>
    (segments_b.map (fun sb =>
      let overlap_start := max sa.start_sec sb.start_sec
      let overlap_end := min sa.end_sec sb.end_sec
      if overlap_start < overlap_end then overlap_end - overlap_start
      else 0)).sum)).sum

/-! ## Silence (stats._compute_silence) -/

/-- The dict returned by stats._compute_silence. -/
structure SilenceInfo where
  total : ℚ
  count : ℕ
  avg : ℚ
  longest : ℚ
deriving DecidableEq

/-- Python tuple comparison on (start, end) pairs, as used by `list.sort()`
in stats._compute_silence. -/
def lexPairLe (p q : ℚ × ℚ) : Bool :=
  decide (p.1 < q.1 ∨ (p.1 = q.1 ∧ p.2 ≤ q.2))

/-- The overlap-merging pass of stats._compute_silence, with the open
interval (`merged[-1]` in the source) as explicit state. -/
def mergeOverlapping : (ℚ × ℚ) → List (ℚ × ℚ) → List (ℚ × ℚ)
  | cur, [] => [cur]
  | (ps, pe), (s, e) :: rest =>
    if s ≤ pe then mergeOverlapping (ps, max pe e) rest
    else (ps, pe) :: mergeOverlapping (s, e) rest

/-- Checked division: Python float division raises ZeroDivisionError. -/
def divE (a b : ℚ) : Except String ℚ :=
  if b = 0 then Except.error "ZeroDivisionError" else Except.ok (a / b)

/-- stats._compute_silence: merge all speech into one sorted overlap-free
timeline; the leading gap, positive internal gaps and trailing gap are the
pauses. -/
def compute_silence (segments_a segments_b : List SpeechSegment)
    (duration_sec : ℚ) : Except String SilenceInfo :=
  match ((segments_a.map (fun s => (s.start_sec, s.end_sec))) ++
      (segments_b.map (fun s => (s.start_sec, s.end_sec)))).mergeSort lexPairLe with
  | [] =>
    Except.ok ⟨duration_sec, if 0 < duration_sec then 1 else 0,
      duration_sec, duration_sec⟩
  | first :: rest =>
    let merged := mergeOverlapping first rest
    let lead := if 0 < (merged.headD (0, 0)).1 then [(merged.headD (0, 0)).1] else []
    let inner := (merged.zip merged.tail).filterMap (fun pq =>
      if 0 < pq.2.1 - pq.1.2 then some (pq.2.1 - pq.1.2) else none)
    let trail := if (merged.getLastD (0, 0)).2 < duration_sec then
      [duration_sec - (merged.getLastD (0, 0)).2] else []
    let pauses := lead ++ inner ++ trail
    let total_silence := pauses.sum
    if pauses = [] then Except.ok ⟨total_silence, 0, 0, 0⟩
    else do
      let avg ← divE total_silence pauses.length
      Except.ok ⟨total_silence, pauses.length, avg, npMax pauses⟩

/-! ## Aggregator (stats.compute_stats) -/

/-- stats.compute_stats: assemble all conversation statistics.  Divisions
use checked division `divE`; every one is guarded in the source. -/
def compute_stats (segments_a segments_b : List SpeechSegment)
    (duration_sec : ℚ) (label_a label_b : String) :
    Except String ConversationStats := do
  let talk_a := (segments_a.map SpeechSegment.duration_sec).sum
  let talk_b := (segments_b.map SpeechSegment.duration_sec).sum
  let pct_a ← if 0 < duration_sec then
    (divE talk_a duration_sec).map (fun r => r * 100) else Except.ok 0
  let pct_b ← if 0 < duration_sec then
    (divE talk_b duration_sec).map (fun r => r * 100) else Except.ok 0
  let turns := build_turns segments_a segments_b label_a label_b
  let rt := compute_response_times turns label_a
  let interruptions := detect_interruptions segments_a segments_b label_a label_b
  let made_a := interruptions.countP (fun i => decide (i.interrupter = label_a))
  let made_b := interruptions.countP (fun i => decide (¬ i.interrupter = label_a))
  let yield_b := (interruptions.filter
    (fun i => decide (i.interrupter = label_a))).map Interruption.yielding_latency
  let yield_a := (interruptions.filter
    (fun i => decide (¬ i.interrupter = label_a))).map Interruption.yielding_latency
  let total_overlap := compute_overlap segments_a segments_b
  let overlap_pct ← if 0 < duration_sec then
    (divE total_overlap duration_sec).map (fun r => r * 100) else Except.ok 0
  let silence_info ← compute_silence segments_a segments_b duration_sec
  let silence_pct ← if 0 < duration_sec then
    (divE silence_info.total duration_sec).map (fun r => r * 100) else Except.ok 0
  Except.ok
    ⟨duration_sec,
      ⟨label_a, talk_a, pct_a,
        turns.countP (fun t => decide (t.speaker = label_a)),
        (turns.filter (fun t => decide (t.speaker = label_a))).map Turn.duration,
        rt.1, made_a, made_b, yield_a⟩,
      ⟨label_b, talk_b, pct_b,
        turns.countP (fun t => decide (t.speaker = label_b)),
        (turns.filter (fun t => decide (t.speaker = label_b))).map Turn.duration,
        rt.2, made_b, made_a, yield_b⟩,
      turns, interruptions, total_overlap, overlap_pct,
      silence_info.total, silence_pct, silence_info.count,
      silence_info.avg, silence_info.longest⟩

/-! ## Voice activity detection (vad.py) -/

/-- Python `int(q)`: truncation toward zero. -/
def pyInt (q : ℚ) : ℤ := if q < 0 then ⌈q⌉ else ⌊q⌋

/-- RMS energy of one frame: `np.sqrt(np.mean(frame**2))`. -/
noncomputable def frameRms (frame : List ℝ) : ℝ :=
  Real.sqrt ((frame.map (fun x => x ^ 2)).sum / frame.length)

open scoped Classical in
/-- np.percentile with the default linear interpolation: sort, take the
virtual index `q/100 * (n-1)` and interpolate between its neighbours. -/
noncomputable def percentile (l : List ℝ) (q : ℚ) : ℝ :=
  let s := l.mergeSort (fun x y => decide (x ≤ y))
  let h : ℚ := ((l.length : ℚ) - 1) * q / 100
  let lo := (⌊h⌋).toNat
  let hi := (⌈h⌉).toNat
  s.getD lo 0 + ((h : ℝ) - ((⌊h⌋ : ℤ) : ℝ)) * (s.getD hi 0 - s.getD lo 0)

/-- vad._auto_threshold: noise floor at the 30th percentile, peak at the
95th, threshold 40% of the way up (or the noise floor if degenerate). -/
noncomputable def auto_threshold (rms : List ℝ) : ℝ :=
  if rms.length = 0 then 0
  else
    let noise_floor := percentile rms 30
    let peak := percentile rms 95
    if peak ≤ noise_floor then noise_floor
    else noise_floor + (2 / 5) * (peak - noise_floor)

/-- The run-length-encoding loop of vad._frames_to_segments, with the
`in_segment`/`start` state as an `Option`. -/
def runLength : List Bool → ℕ → Option ℕ → List (ℕ × ℕ)
  | [], _, none => []
  | [], i, some st => [(st, i)]
  | b :: rest, i, none =>
    if b then runLength rest (i + 1) (some i) else runLength rest (i + 1) none
  | b :: rest, i, some st =>
    if b then runLength rest (i + 1) (some st)
    else (st, i) :: runLength rest (i + 1) none

/-- The gap-merging pass of vad._frames_to_segments: a run separated from
the open run by fewer than `min_silence_frames` silent frames is folded in
(the open run, `merged[-1]` in the source, is explicit state). -/
def mergeRuns (msil : ℤ) : (ℕ × ℕ) → List (ℕ × ℕ) → List (ℕ × ℕ)
  | cur, [] => [cur]
  | (ps, pe), (s, e) :: rest =>
    if (s : ℤ) - (pe : ℤ) < msil then mergeRuns msil (ps, e) rest
    else (ps, pe) :: mergeRuns msil (s, e) rest

/-- vad._frames_to_segments: run-length encode, merge small gaps, then drop
runs shorter than `min_speech_frames`. -/
def frames_to_segments (is_speech : List Bool)
    (min_silence_frames min_speech_frames : ℤ) : List (ℕ × ℕ) :=
  match runLength is_speech 0 none with
  | [] => []
  | first :: rest =>
    (mergeRuns min_silence_frames first rest).filter
      (fun p => decide (min_speech_frames ≤ (p.2 : ℤ) - (p.1 : ℤ)))

open scoped Classical in
/-- vad.detect_speech.  The numpy reshape with a negative dimension (reached
exactly when `frame_samples < 0` and the signal is nonempty) raises
ValueError, modelled as `Except.error`. -/
noncomputable def detect_speech (signal : List ℝ) (sample_rate : ℤ)
    (frame_ms : ℤ) (threshold : Option ℝ) (min_speech_ms min_silence_ms : ℤ) :
    Except String (List SpeechSegment) :=
  let frame_samples : ℤ := pyInt (((sample_rate * frame_ms : ℤ) : ℚ) / 1000)
  if frame_samples = 0 then Except.ok []
  else
    let n_frames : ℤ := Int.fdiv (signal.length : ℤ) frame_samples
    if n_frames = 0 then Except.ok []
    else if frame_samples < 0 then Except.error "ValueError: cannot reshape"
    else
      let fs := frame_samples.toNat
      let frames := (List.range n_frames.toNat).map
        (fun i => (signal.drop (i * fs)).take fs)
      let rms := frames.map frameRms
      let thr := threshold.getD (auto_threshold rms)
      let is_speech := rms.map (fun r => decide (thr < r))
      let min_silence_frames := pyInt ((min_silence_ms : ℚ) / (frame_ms : ℚ))
      let min_speech_frames := pyInt ((min_speech_ms : ℚ) / (frame_ms : ℚ))
      Except.ok ((frames_to_segments is_speech min_silence_frames
        min_speech_frames).map (fun p =>
          ⟨((p.1 : ℚ) * (frame_ms : ℚ)) / 1000,
            ((p.2 : ℚ) * (frame_ms : ℚ)) / 1000⟩))

/-! ## Proof-side definitions -/

/-- Spec-side: an interruption event with the interrupter and interrupted
labels exchanged (used to compare the detector output under swapped
arguments with the specification sentence). -/
def swapRoles (i : Interruption) : Interruption :=
  ⟨i.interrupted, i.interrupter, i.start_time, i.yielding_latency⟩

/-- Spec-side response-time samples, following the specification sentence:
each adjacent pair of turns with different speakers contributes
`gap = next.start - prev.end` to the speaker who starts the new turn exactly
when the gap is strictly positive. -/
def responseSamplesSpec (turns : List Turn) (s : String) : List ℚ :=
  (turns.zip turns.tail).filterMap (fun pc =>
    if pc.1.speaker ≠ pc.2.speaker ∧ pc.2.speaker = s ∧ 0 < pc.2.start - pc.1.stop
    then some (pc.2.start - pc.1.stop) else none)

/-- Length of the part of the interval `p` lying right of `x`. -/
def clip (x : ℚ) (p : ℚ × ℚ) : ℚ := max 0 (p.2 - max p.1 x)

/-- Sweep-line measure of a union of intervals, right of the frontier `x`. -/
def sweep : ℚ → List (ℚ × ℚ) → ℚ
  | _, [] => 0
  | x, p :: rest => clip x p + sweep (max x p.2) rest

/-- Pairwise-intersection mass of two interval families, right of `x`. -/
def overlapClip (x : ℚ) (A B : List (ℚ × ℚ)) : ℚ :=
  (A.map (fun p => (B.map (fun q => clip x (max p.1 q.1, min p.2 q.2))).sum)).sum

/-- Pure characterization of `compute_silence` (same computation with the
guarded division written as a total rational division). -/
def silencePure (segments_a segments_b : List SpeechSegment)
    (duration_sec : ℚ) : SilenceInfo :=
  match ((segments_a.map (fun s => (s.start_sec, s.end_sec))) ++
      (segments_b.map (fun s => (s.start_sec, s.end_sec)))).mergeSort lexPairLe with
  | [] =>
    ⟨duration_sec, if 0 < duration_sec then 1 else 0, duration_sec, duration_sec⟩
  | first :: rest =>
    let merged := mergeOverlapping first rest
    let lead := if 0 < (merged.headD (0, 0)).1 then [(merged.headD (0, 0)).1] else []
    let inner := (merged.zip merged.tail).filterMap (fun pq =>
      if 0 < pq.2.1 - pq.1.2 then some (pq.2.1 - pq.1.2) else none)
    let trail := if (merged.getLastD (0, 0)).2 < duration_sec then
      [duration_sec - (merged.getLastD (0, 0)).2] else []
    let pauses := lead ++ inner ++ trail
    if pauses = [] then ⟨pauses.sum, 0, 0, 0⟩
    else ⟨pauses.sum, pauses.length, pauses.sum / pauses.length, npMax pauses⟩

/-- Pure characterization of `compute_stats` (same computation with every
guarded division written as a total rational division). -/
def statsPure (segments_a segments_b : List SpeechSegment)
    (duration_sec : ℚ) (label_a label_b : String) : ConversationStats :=
  let talk_a := (segments_a.map SpeechSegment.duration_sec).sum
  let talk_b := (segments_b.map SpeechSegment.duration_sec).sum
  let pct_a := if 0 < duration_sec then talk_a / duration_sec * 100 else 0
  let pct_b := if 0 < duration_sec then talk_b / duration_sec * 100 else 0
  let turns := build_turns segments_a segments_b label_a label_b
  let rt := compute_response_times turns label_a
  let interruptions := detect_interruptions segments_a segments_b label_a label_b
  let made_a := interruptions.countP (fun i => decide (i.interrupter = label_a))
  let made_b := interruptions.countP (fun i => decide (¬ i.interrupter = label_a))
  let yield_b := (interruptions.filter
    (fun i => decide (i.interrupter = label_a))).map Interruption.yielding_latency
  let yield_a := (interruptions.filter
    (fun i => decide (¬ i.interrupter = label_a))).map Interruption.yielding_latency
  let total_overlap := compute_overlap segments_a segments_b
  let overlap_pct := if 0 < duration_sec then total_overlap / duration_sec * 100 else 0
  let si := silencePure segments_a segments_b duration_sec
  let silence_pct := if 0 < duration_sec then si.total / duration_sec * 100 else 0
  ⟨duration_sec,
    ⟨label_a, talk_a, pct_a,
      turns.countP (fun t => decide (t.speaker = label_a)),
      (turns.filter (fun t => decide (t.speaker = label_a))).map Turn.duration,
      rt.1, made_a, made_b, yield_a⟩,
    ⟨label_b, talk_b, pct_b,
      turns.countP (fun t => decide (t.speaker = label_b)),
      (turns.filter (fun t => decide (t.speaker = label_b))).map Turn.duration,
      rt.2, made_b, made_a, yield_b⟩,
    turns, interruptions, total_overlap, overlap_pct,
    si.total, silence_pct, si.count, si.avg, si.longest⟩

/-! ## Helper lemmas -/

/-- compute_silence never raises: it equals its pure characterization. -/
theorem compute_silence_eq (a b : List SpeechSegment) (d : ℚ) :
    compute_silence a b d = Except.ok (silencePure a b d) := by
  unfold compute_silence silencePure
  cases hL : ((a.map (fun s => (s.start_sec, s.end_sec))) ++
      (b.map (fun s => (s.start_sec, s.end_sec)))).mergeSort lexPairLe with
  | nil => simp [hL]
  | cons first rest =>
    simp only [hL, divE, Bind.bind, Except.bind]
    split_ifs <;>
      simp_all [Nat.cast_eq_zero, List.length_eq_zero, List.append_eq_nil]
    all_goals
      first
      | (rename_i h; exact absurd h (by positivity))
      | (rename_i hex hall
         obtain ⟨x, x1, x2, ⟨x3, hmem⟩, hlt⟩ := hex
         exact absurd (hall x x1 x2 x3 hmem) (not_le.mpr hlt))

/-- compute_stats never raises: it equals its pure characterization. -/
theorem compute_stats_eq (a b : List SpeechSegment) (d : ℚ) (la lb : String) :
    compute_stats a b d la lb = Except.ok (statsPure a b d la lb) := by
  unfold compute_stats statsPure
  rw [compute_silence_eq]
  by_cases hd : 0 < d
  · simp [hd, divE, hd.ne', Bind.bind, Except.bind, Except.map]
  · simp [hd, divE, Bind.bind, Except.bind, Except.map]

/-- Auxiliary: length of a filterMap over an optional match equals the count
of elements whose match succeeds. -/
theorem length_filterMap_optionMap {α β γ : Type} (xs : List α)
    (g : α → Option β) (h : α → β → γ) :
    (xs.filterMap (fun x => (g x).map (h x))).length =
      xs.countP (fun x => (g x).isSome) := by
  induction xs with
  | nil => rfl
  | cons x xs ih =>
    cases hg : g x <;> simp [List.filterMap_cons, hg, List.countP_cons, ih]

/-- C2: the Interruption Detector records an event for interrupter X and
interrupted Y exactly when some interval of X starts strictly inside an
interval of Y; one event per interrupter interval, against the first
matching interval in list order, with nonnegative yielding latency equal to
the matched end minus the interrupting start. -/
theorem interruption_detector_characterization
    (a b : List SpeechSegment) (la lb : String) :
    (∀ i : Interruption, i ∈ detect_interruptions a b la lb ↔
      ((∃ sx ∈ b, ∃ sy, findInterrupted sx a = some sy ∧
          (⟨lb, la, sx.start_sec, sy.end_sec - sx.start_sec⟩ : Interruption) = i) ∨
        (∃ sx ∈ a, ∃ sy, findInterrupted sx b = some sy ∧
          (⟨la, lb, sx.start_sec, sy.end_sec - sx.start_sec⟩ : Interruption) = i))) ∧
    (detect_interruptions a b la lb).length =
      b.countP (fun sx => (findInterrupted sx a).isSome) +
        a.countP (fun sx => (findInterrupted sx b).isSome) ∧
    (∀ (sx : SpeechSegment) (ys : List SpeechSegment),
      (findInterrupted sx ys).isSome = true ↔
        ∃ sy ∈ ys, sy.start_sec < sx.start_sec ∧ sx.start_sec < sy.end_sec) ∧
    (∀ i ∈ detect_interruptions a b la lb, 0 ≤ i.yielding_latency) := by
  refine ⟨?_, ?_, ?_, ?_⟩
  · intro i
    simp [detect_interruptions, interruptionsOneWay, List.mem_filterMap,
      Option.map_eq_some']
  · simp [detect_interruptions, interruptionsOneWay, length_filterMap_optionMap]
  · intro sx ys
    simp [findInterrupted, List.find?_isSome]
  · intro i hi
    simp only [detect_interruptions, List.mem_mergeSort, List.mem_append,
      interruptionsOneWay, findInterrupted, List.mem_filterMap,
      Option.map_eq_some'] at hi
    rcases hi with ⟨sx, hmem, sy, hfind, heq⟩ | ⟨sx, hmem, sy, hfind, heq⟩ <;>
    · have hp := List.find?_some hfind
      rw [decide_eq_true_eq] at hp
      rw [← heq]
      simp only []
      linarith [hp.2]

/-- C3 (amended): calling the Interruption Detector with the two interval
lists and the two labels both swapped yields the same multiset of events,
each event literally unchanged. -/
theorem interruption_detector_swap_same
    (a b : List SpeechSegment) (la lb : String) :
    (detect_interruptions b a lb la).Perm (detect_interruptions a b la lb) := by
  unfold detect_interruptions
  exact (List.mergeSort_perm _ _).trans
    (List.perm_append_comm.trans (List.mergeSort_perm _ _).symm)

/-- C3 counterexample: with lists and labels swapped the events come back
identical, not with interrupter and interrupted exchanged, so the exchanged
multiset differs from the actual output. -/
theorem interruption_swap_counterexample :
    ¬ (detect_interruptions [⟨3, 7⟩] [⟨0, 5⟩] "B" "A").Perm
        ((detect_interruptions [⟨0, 5⟩] [⟨3, 7⟩] "A" "B").map swapRoles) := by
  have h1 : detect_interruptions [⟨0, 5⟩] [⟨3, 7⟩] "A" "B" =
      [⟨"B", "A", 3, 2⟩] := by
    norm_num [detect_interruptions, interruptionsOneWay, findInterrupted,
      List.find?, List.filterMap_cons, List.filterMap_nil]
  have h2 : detect_interruptions [⟨3, 7⟩] [⟨0, 5⟩] "B" "A" =
      [⟨"B", "A", 3, 2⟩] := by
    norm_num [detect_interruptions, interruptionsOneWay, findInterrupted,
      List.find?, List.filterMap_cons, List.filterMap_nil]
  rw [h1, h2]
  simp [swapRoles, List.perm_singleton]

/-- Auxiliary: folding from an open turn always emits that turn first (its
speaker is preserved by same-speaker extensions). -/
theorem turnFold_cons_head (evs : List (ℚ × ℚ × String)) :
    ∀ t : Turn, ∃ u l, turnFold (some t) evs = u :: l ∧ u.speaker = t.speaker := by
  induction evs with
  | nil => exact fun t => ⟨t, [], rfl, rfl⟩
  | cons ev rest ih =>
    intro t
    obtain ⟨s, e, sp⟩ := ev
    by_cases h : t.speaker = sp
    · obtain ⟨u, l, hu, hsp⟩ := ih ⟨sp, t.start, max t.stop e⟩
      exact ⟨u, l, by simp [turnFold, h, hu], by rw [hsp, h]⟩
    · exact ⟨t, turnFold (some ⟨sp, s, e⟩) rest, by simp [turnFold, h], rfl⟩

/-- Auxiliary: the turn fold never emits two consecutive turns of the same
speaker. -/
theorem turnFold_chain (evs : List (ℚ × ℚ × String)) :
    ∀ ot : Option Turn,
      (turnFold ot evs).Chain' (fun t u => t.speaker ≠ u.speaker) := by
  induction evs with
  | nil => intro ot; cases ot <;> simp [turnFold]
  | cons ev rest ih =>
    intro ot
    obtain ⟨s, e, sp⟩ := ev
    cases ot with
    | none => simpa [turnFold] using ih (some ⟨sp, s, e⟩)
    | some t =>
      by_cases h : t.speaker = sp
      · simpa [turnFold, h] using ih (some ⟨sp, t.start, max t.stop e⟩)
      · simp only [turnFold, if_neg h]
        rw [List.chain'_cons']
        refine ⟨?_, ih (some ⟨sp, s, e⟩)⟩
        intro u hu
        obtain ⟨u', l, hl, hsp⟩ := turnFold_cons_head rest ⟨sp, s, e⟩
        rw [hl] at hu
        simp only [List.head?_cons, Option.mem_def, Option.some.injEq] at hu
        rw [← hu, hsp]
        simpa using h

/-- Auxiliary: mergeSort of a two-element list. -/
theorem mergeSort_pair {α : Type} (le : α → α → Bool) (x y : α) :
    [x, y].mergeSort le = if le x y then [x, y] else [y, x] := by
  cases h : le x y <;>
    simp [List.mergeSort, List.merge, List.splitInTwo, h]

/-- C4: no two consecutive turns of the Turn Builder share a speaker, and
two same-speaker intervals always fold into the single turn spanning their
union (start of the open turn, maximum of the two ends). -/
theorem turn_builder_merge (a b : List SpeechSegment) (la lb : String) :
    (build_turns a b la lb).Chain' (fun t u => t.speaker ≠ u.speaker) ∧
    (∀ g1 g2 : SpeechSegment, build_turns [g1, g2] [] la lb =
      [⟨la, min g1.start_sec g2.start_sec, max g1.end_sec g2.end_sec⟩]) := by
  refine ⟨turnFold_chain _ _, ?_⟩
  intro g1 g2
  unfold build_turns
  simp only [List.map_cons, List.map_nil, List.append_nil]
  rw [mergeSort_pair]
  by_cases h : g1.start_sec ≤ g2.start_sec
  · rw [if_pos (by simpa using h)]
    simp [turnFold, min_eq_left h]
  · rw [if_neg (by simpa using h)]
    have h' := le_of_not_le h
    simp [turnFold, min_eq_right h', max_comm]

/-- C5: the response-time computation yields, for each speaker, exactly the
strictly positive gaps of adjacent differing-speaker turn pairs, attributed
to the speaker starting the new turn. -/
theorem response_times_exactly_positive_gaps (turns : List Turn)
    (la lb : String) (hne : la ≠ lb)
    (hmem : ∀ t ∈ turns, t.speaker = la ∨ t.speaker = lb) :
    compute_response_times turns la =
      (responseSamplesSpec turns la, responseSamplesSpec turns lb) := by
  induction turns with
  | nil => rfl
  | cons t1 rest ih =>
    cases rest with
    | nil => rfl
    | cons t2 rest2 =>
      have ih2 := ih (fun t ht => hmem t (List.mem_cons_of_mem _ ht))
      have hspec : ∀ s : String, responseSamplesSpec (t1 :: t2 :: rest2) s =
          (if t1.speaker ≠ t2.speaker ∧ t2.speaker = s ∧ 0 < t2.start - t1.stop
            then [t2.start - t1.stop] else []) ++ responseSamplesSpec (t2 :: rest2) s := by
        intro s
        simp only [responseSamplesSpec, List.zip_cons_cons, List.tail_cons,
          List.filterMap_cons]
        split_ifs <;> simp
      simp only [compute_response_times, ih2, hspec]
      by_cases h1 : t1.speaker = t2.speaker
      · simp [h1]
      · by_cases h2 : t2.start - t1.stop ≤ 0
        · have : ¬ (0 < t2.start - t1.stop) := not_lt.mpr h2
          simp [h1, h2, this]
        · have hgap : 0 < t2.start - t1.stop := lt_of_not_le h2
          by_cases h3 : t2.speaker = la
          · have h3b : t2.speaker ≠ lb := by rw [h3]; exact hne
            have h1la : ¬ t1.speaker = la := fun hc => h1 (hc.trans h3.symm)
            simp [h1, h2, h3, h3b, hgap, h1la, hne]
          · have h3b : t2.speaker = lb :=
              (hmem t2 (List.mem_cons_of_mem _ (List.mem_cons_self _ _))).resolve_left h3
            have h1lb : ¬ t1.speaker = lb := fun hc => h1 (hc.trans h3b.symm)
            simp [h1, h2, h3, h3b, hgap, h1lb, hne.symm]

/-- C7: with no detected speech and positive duration, compute_stats reports
exactly one pause spanning the whole recording, zero talk time, and all
distributional statistics zero, without raising; at zero duration the pause
count is zero. -/
theorem empty_segments_full_pause (la lb : String) (d : ℚ) (hd : 0 < d) :
    (∃ st, compute_stats [] [] d la lb = Except.ok st ∧
      st.num_pauses = 1 ∧ st.total_silence_sec = d ∧
      st.avg_pause_duration = d ∧ st.longest_pause = d ∧
      st.speaker_a.total_talk_time = 0 ∧ st.speaker_b.total_talk_time = 0 ∧
      avg_turn_duration st.speaker_a = 0 ∧ median_turn_duration st.speaker_a = 0 ∧
      min_turn_duration st.speaker_a = 0 ∧ max_turn_duration st.speaker_a = 0 ∧
      avg_response_time st.speaker_a = 0 ∧ median_response_time st.speaker_a = 0 ∧
      std_response_time st.speaker_a = 0 ∧ min_response_time st.speaker_a = 0 ∧
      max_response_time st.speaker_a = 0 ∧ avg_yielding_latency st.speaker_a = 0 ∧
      median_yielding_latency st.speaker_a = 0 ∧ std_yielding_latency st.speaker_a = 0 ∧
      min_yielding_latency st.speaker_a = 0 ∧ max_yielding_latency st.speaker_a = 0 ∧
      avg_turn_duration st.speaker_b = 0 ∧ median_turn_duration st.speaker_b = 0 ∧
      min_turn_duration st.speaker_b = 0 ∧ max_turn_duration st.speaker_b = 0 ∧
      avg_response_time st.speaker_b = 0 ∧ median_response_time st.speaker_b = 0 ∧
      std_response_time st.speaker_b = 0 ∧ min_response_time st.speaker_b = 0 ∧
      max_response_time st.speaker_b = 0 ∧ avg_yielding_latency st.speaker_b = 0 ∧
      median_yielding_latency st.speaker_b = 0 ∧ std_yielding_latency st.speaker_b = 0 ∧
      min_yielding_latency st.speaker_b = 0 ∧ max_yielding_latency st.speaker_b = 0) ∧
    (∃ st0, compute_stats [] [] 0 la lb = Except.ok st0 ∧ st0.num_pauses = 0) := by
  constructor
  · refine ⟨statsPure [] [] d la lb, compute_stats_eq _ _ _ _ _, ?_⟩
    simp [statsPure, silencePure, build_turns, turnFold, detect_interruptions,
      interruptionsOneWay, compute_response_times, compute_overlap,
      avg_turn_duration, median_turn_duration, min_turn_duration,
      max_turn_duration, avg_response_time, median_response_time,
      std_response_time, min_response_time, max_response_time,
      avg_yielding_latency, median_yielding_latency, std_yielding_latency,
      min_yielding_latency, max_yielding_latency, hd]
  · refine ⟨statsPure [] [] 0 la lb, compute_stats_eq _ _ _ _ _, ?_⟩
    simp [statsPure, silencePure]

/-- C9: compute_stats is a total function of its inputs: for every segment
lists and duration it returns a ConversationStats value (never an error),
and at zero duration every percentage defaults to zero. -/
theorem compute_stats_never_raises (a b : List SpeechSegment) (d : ℚ)
    (la lb : String) :
    (∃ st, compute_stats a b d la lb = Except.ok st) ∧
    (∃ st0, compute_stats a b 0 la lb = Except.ok st0 ∧
      st0.speaker_a.talk_time_pct = 0 ∧ st0.speaker_b.talk_time_pct = 0 ∧
      st0.overlap_pct = 0 ∧ st0.silence_pct = 0) := by
  refine ⟨⟨_, compute_stats_eq a b d la lb⟩,
    ⟨statsPure a b 0 la lb, compute_stats_eq _ _ _ _ _, ?_⟩⟩
  simp [statsPure]

/-- C8 evidence: a negative sample rate of -10 Hz makes detect_speech return
an empty list silently (int(-10*30/1000) == 0), a negative duration makes
compute_stats return a silently computed record, and the empty-result
conditions (empty signal) indeed return empty without raising. -/
theorem negative_inputs_not_rejected :
    detect_speech (List.replicate 100 (0 : ℝ)) (-10) 30 none 200 300 =
      Except.ok [] ∧
    (∃ st, compute_stats [] [] (-5) "A" "B" = Except.ok st ∧
      st.total_silence_sec = -5) ∧
    detect_speech [] 16000 30 none 200 300 = Except.ok [] := by
  refine ⟨?_, ⟨statsPure [] [] (-5) "A" "B", compute_stats_eq _ _ _ _ _, ?_⟩, ?_⟩
  · have h0 : pyInt ((-300 : ℚ) / 1000) = 0 := by norm_num [pyInt]
    simp [detect_speech, h0]
  · simp [statsPure, silencePure]
  · have h1 : pyInt ((480000 : ℚ) / 1000) = 480 := by norm_num [pyInt]
    simp [detect_speech, h1, Int.zero_fdiv]

/-- Auxiliary: clip is unchanged by raising the frontier to a point left of
the interval. -/
theorem clip_frozen {e : ℚ} {p : ℚ × ℚ} (h : e ≤ p.1) (x : ℚ) :
    clip (max x e) p = clip x p := by
  unfold clip
  rcases le_total x e with hx | hx <;>
    simp [max_def, min_def] <;> split_ifs <;> linarith

/-- Auxiliary: splitting the clipped length of an interval at a point e0:
the part right of the frontier is the part right of max x e0 plus the part
between x and e0. -/
theorem clip_split (s e e0 x : ℚ) :
    max 0 (e - max s x) =
      max 0 (e - max s (max x e0)) + max 0 (min e0 e - max s x) := by
  simp only [max_def, min_def]
  split_ifs <;> linarith

/-- Auxiliary: sum of clipped lengths is unchanged by raising the frontier
to a point left of every interval. -/
theorem sum_clip_frozen {e : ℚ} {L : List (ℚ × ℚ)} (h : ∀ p ∈ L, e ≤ p.1)
    (x : ℚ) :
    (L.map (clip (max x e))).sum = (L.map (clip x)).sum := by
  induction L with
  | nil => rfl
  | cons p rest ih =>
    simp only [List.map_cons, List.sum_cons]
    rw [clip_frozen (h p (List.mem_cons_self _ _)) x,
      ih (fun q hq => h q (List.mem_cons_of_mem _ hq))]

/-- Auxiliary: sweep computes the summed clip of a pairwise-disjoint list;
the moving frontier never cuts into a later interval. -/
theorem sweep_eq_sum_clip {L : List (ℚ × ℚ)}
    (h : L.Pairwise (fun p q => p.2 ≤ q.1)) (x : ℚ) :
    sweep x L = (L.map (clip x)).sum := by
  induction L generalizing x with
  | nil => rfl
  | cons p rest ih =>
    simp only [sweep, List.map_cons, List.sum_cons]
    rw [ih h.of_cons, ← @sum_clip_frozen p.2 rest ?_ x]
    intro q hq
    exact (List.pairwise_cons.mp h).1 q hq

/-- Auxiliary: right-cons decomposition of the pairwise intersection mass. -/
theorem overlapClip_cons_right (x : ℚ) (A : List (ℚ × ℚ)) (b : ℚ × ℚ)
    (B : List (ℚ × ℚ)) :
    overlapClip x A (b :: B) =
      (A.map (fun p => clip x (max p.1 b.1, min p.2 b.2))).sum +
        overlapClip x A B := by
  unfold overlapClip
  simp only [List.map_cons, List.sum_cons]
  rw [← List.sum_map_add]

/-- Auxiliary: overlap mass is unchanged by raising the frontier to a point
left of every member of the left family. -/
theorem overlapClip_frozen_left {e : ℚ} {A : List (ℚ × ℚ)}
    (h : ∀ p ∈ A, e ≤ p.1) (x : ℚ) (B : List (ℚ × ℚ)) :
    overlapClip (max x e) A B = overlapClip x A B := by
  unfold overlapClip
  refine congrArg _ (List.map_congr_left fun p hp => congrArg _
    (List.map_congr_left fun q _ => ?_))
  exact clip_frozen (le_trans (h p hp) (le_max_left _ _)) x

/-- Auxiliary: overlap mass is unchanged by raising the frontier to a point
left of every member of the right family. -/
theorem overlapClip_frozen_right {e : ℚ} {B : List (ℚ × ℚ)}
    (h : ∀ q ∈ B, e ≤ q.1) (x : ℚ) (A : List (ℚ × ℚ)) :
    overlapClip (max x e) A B = overlapClip x A B := by
  unfold overlapClip
  refine congrArg _ (List.map_congr_left fun p _ => congrArg _
    (List.map_congr_left fun q hq => ?_))
  exact clip_frozen (le_trans (h q hq) (le_max_right _ _)) x

/-- Auxiliary: lexPairLe gives an ordering of the first components. -/
theorem lexPairLe_fst_le {p q : ℚ × ℚ} (h : lexPairLe p q = true) :
    p.1 ≤ q.1 := by
  simp only [lexPairLe, decide_eq_true_eq] at h
  rcases h with h | ⟨h, -⟩
  · exact le_of_lt h
  · exact le_of_eq h

/-- Auxiliary: failure of lexPairLe gives the reverse ordering of starts. -/
theorem lexPairLe_false_fst_le {p q : ℚ × ℚ} (h : lexPairLe p q = false) :
    q.1 ≤ p.1 := by
  simp only [lexPairLe, decide_eq_false_iff_not, not_or, not_lt] at h
  exact h.1

/-- Inclusion-exclusion for the sweep of the sorted merge of two
internally-disjoint interval families: union mass equals the two total
masses minus the pairwise intersection mass, all clipped at the frontier. -/
theorem sweep_merge (A : List (ℚ × ℚ)) :
    ∀ (B : List (ℚ × ℚ)) (x : ℚ),
      A.Pairwise (fun p q => p.2 ≤ q.1) →
      B.Pairwise (fun p q => p.2 ≤ q.1) →
      (∀ p ∈ A, p.1 ≤ p.2) → (∀ q ∈ B, q.1 ≤ q.2) →
      sweep x (List.merge A B lexPairLe) =
        (A.map (clip x)).sum + (B.map (clip x)).sum - overlapClip x A B := by
  induction A with
  | nil =>
    intro B x _ hB _ _
    simp [List.merge, sweep_eq_sum_clip hB, overlapClip]
  | cons a as ihA =>
    intro B
    induction B with
    | nil =>
      intro x hA _ hvA _
      simp [List.merge, sweep_eq_sum_clip hA, overlapClip]
    | cons b bs ihB =>
      intro x hA hB hvA hvB
      have haas : ∀ p ∈ as, a.2 ≤ p.1 := (List.pairwise_cons.mp hA).1
      have hbbs : ∀ q ∈ bs, b.2 ≤ q.1 := (List.pairwise_cons.mp hB).1
      cases hab : lexPairLe a b with
      | true =>
        rw [List.cons_merge_cons_pos _ _ _ hab]
        have hstep : sweep x (a :: List.merge as (b :: bs) lexPairLe) =
            clip x a + sweep (max x a.2) (List.merge as (b :: bs) lexPairLe) := rfl
        rw [hstep, ihA (b :: bs) (max x a.2) (List.Pairwise.of_cons hA) hB
          (fun p hp => hvA p (List.mem_cons_of_mem _ hp)) hvB]
        rw [sum_clip_frozen haas x, overlapClip_frozen_left haas x (b :: bs)]
        have hafst : ∀ q ∈ b :: bs, a.1 ≤ q.1 := by
          intro q hq
          rcases List.mem_cons.mp hq with rfl | hq
          · exact lexPairLe_fst_le hab
          · exact le_trans (lexPairLe_fst_le hab)
              (le_trans (hvB b (List.mem_cons_self _ _)) (hbbs q hq))
        have hBsplit : ((b :: bs).map (clip x)).sum =
            ((b :: bs).map (clip (max x a.2))).sum +
              ((b :: bs).map (fun q => clip x (max a.1 q.1, min a.2 q.2))).sum := by
          rw [← List.sum_map_add]
          refine congrArg _ (List.map_congr_left fun q hq => ?_)
          have h1 : max a.1 q.1 = q.1 := max_eq_right (hafst q hq)
          unfold clip
          simp only [h1]
          exact clip_split q.1 q.2 a.2 x
        have hoverlap : overlapClip x (a :: as) (b :: bs) =
            ((b :: bs).map (fun q => clip x (max a.1 q.1, min a.2 q.2))).sum +
              overlapClip x as (b :: bs) := by
          unfold overlapClip
          simp [List.map_cons, List.sum_cons]
        rw [hBsplit, hoverlap]
        simp only [List.map_cons, List.sum_cons]
        ring
      | false =>
        rw [List.cons_merge_cons_neg _ _ _ (by simp [hab])]
        have hstep : sweep x (b :: List.merge (a :: as) bs lexPairLe) =
            clip x b + sweep (max x b.2) (List.merge (a :: as) bs lexPairLe) := rfl
        rw [hstep, ihB (max x b.2) hA (List.Pairwise.of_cons hB) hvA
          (fun q hq => hvB q (List.mem_cons_of_mem _ hq))]
        rw [sum_clip_frozen hbbs x, overlapClip_frozen_right hbbs x (a :: as)]
        have hbfst : ∀ p ∈ a :: as, b.1 ≤ p.1 := by
          intro p hp
          rcases List.mem_cons.mp hp with rfl | hp
          · exact lexPairLe_false_fst_le hab
          · exact le_trans (lexPairLe_false_fst_le hab)
              (le_trans (hvA a (List.mem_cons_self _ _)) (haas p hp))
        have hAsplit : ((a :: as).map (clip x)).sum =
            ((a :: as).map (clip (max x b.2))).sum +
              ((a :: as).map (fun p => clip x (max p.1 b.1, min p.2 b.2))).sum := by
          rw [← List.sum_map_add]
          refine congrArg _ (List.map_congr_left fun p hp => ?_)
          have h1 : max p.1 b.1 = p.1 := max_eq_left (hbfst p hp)
          unfold clip
          simp only [h1, min_comm p.2 b.2]
          exact clip_split p.1 p.2 b.2 x
        rw [overlapClip_cons_right, hAsplit]
        simp only [List.map_cons, List.sum_cons]
        ring

/-- Auxiliary: the merged-interval sum equals the open chunk plus the sweep
of the remaining intervals from the chunk end. -/
theorem mergeOverlapping_sum (L : List (ℚ × ℚ)) :
    ∀ cur : ℚ × ℚ, (∀ p ∈ L, p.1 ≤ p.2) →
      ((mergeOverlapping cur L).map (fun p => p.2 - p.1)).sum =
        (cur.2 - cur.1) + sweep cur.2 L := by
  induction L with
  | nil => intro cur _; simp [mergeOverlapping, sweep]
  | cons p rest ih =>
    intro cur hv
    obtain ⟨ps, pe⟩ := cur
    obtain ⟨s, e⟩ := p
    have hrest : ∀ q ∈ rest, q.1 ≤ q.2 :=
      fun q hq => hv q (List.mem_cons_of_mem _ hq)
    have hse : s ≤ e := hv (s, e) (List.mem_cons_self _ _)
    by_cases h : s ≤ pe
    · rw [show mergeOverlapping (ps, pe) ((s, e) :: rest) =
          mergeOverlapping (ps, max pe e) rest by simp [mergeOverlapping, h]]
      rw [ih (ps, max pe e) hrest]
      show max pe e - ps + sweep (max pe e) rest =
        pe - ps + (clip pe (s, e) + sweep (max pe e) rest)
      have hclip : clip pe (s, e) = max pe e - pe := by
        unfold clip
        simp only [max_eq_right h]
        rcases le_total e pe with he | he <;> simp [max_def] <;> split_ifs <;> linarith
      rw [hclip]; ring
    · rw [show mergeOverlapping (ps, pe) ((s, e) :: rest) =
          (ps, pe) :: mergeOverlapping (s, e) rest by simp [mergeOverlapping, h]]
      simp only [List.map_cons, List.sum_cons]
      rw [ih (s, e) hrest]
      show pe - ps + (e - s + sweep e rest) =
        pe - ps + (clip pe (s, e) + sweep (max pe e) rest)
      have hs : pe < s := lt_of_not_le h
      have hclip : clip pe (s, e) = e - s := by
        unfold clip
        simp only [max_eq_left (le_of_lt hs)]
        exact max_eq_right (by linarith)
      have hmax : max pe e = e := max_eq_right (by linarith)
      rw [hclip, hmax]

/-- Auxiliary: the merge pass keeps the start of the open chunk as the head
of its output. -/
theorem mergeOverlapping_head (L : List (ℚ × ℚ)) :
    ∀ cur : ℚ × ℚ, ∃ e tl, mergeOverlapping cur L = (cur.1, e) :: tl := by
  induction L with
  | nil => intro cur; exact ⟨cur.2, [], rfl⟩
  | cons p rest ih =>
    intro cur
    obtain ⟨ps, pe⟩ := cur
    obtain ⟨s, e⟩ := p
    by_cases h : s ≤ pe
    · obtain ⟨e', tl, htl⟩ := ih (ps, max pe e)
      exact ⟨e', tl, by simp [mergeOverlapping, h, htl]⟩
    · obtain ⟨e', tl, htl⟩ := ih (s, e)
      exact ⟨pe, (s, e') :: tl, by simp [mergeOverlapping, h, htl]⟩

/-- Auxiliary: chunks produced by the merge pass are separated by strictly
positive gaps. -/
theorem mergeOverlapping_chain (L : List (ℚ × ℚ)) :
    ∀ cur : ℚ × ℚ,
      (mergeOverlapping cur L).Chain' (fun p q => p.2 < q.1) := by
  induction L with
  | nil => intro cur; simp [mergeOverlapping]
  | cons p rest ih =>
    intro cur
    obtain ⟨ps, pe⟩ := cur
    obtain ⟨s, e⟩ := p
    by_cases h : s ≤ pe
    · simpa [mergeOverlapping, h] using ih (ps, max pe e)
    · rw [show mergeOverlapping (ps, pe) ((s, e) :: rest) =
          (ps, pe) :: mergeOverlapping (s, e) rest by simp [mergeOverlapping, h]]
      rw [List.chain'_cons']
      refine ⟨?_, ih (s, e)⟩
      intro q hq
      obtain ⟨e', tl, htl⟩ := mergeOverlapping_head rest (s, e)
      rw [htl] at hq
      simp only [List.head?_cons, Option.mem_def, Option.some.injEq] at hq
      rw [← hq]
      exact lt_of_not_le h

/-- Auxiliary: the merge pass preserves containment in [0, d] and validity,
given a valid open chunk and valid members. -/
theorem mergeOverlapping_bounds {d : ℚ} (L : List (ℚ × ℚ)) :
    ∀ cur : ℚ × ℚ, 0 ≤ cur.1 → cur.1 ≤ cur.2 → cur.2 ≤ d →
      (∀ p ∈ L, 0 ≤ p.1 ∧ p.1 ≤ p.2 ∧ p.2 ≤ d) →
      ∀ q ∈ mergeOverlapping cur L, 0 ≤ q.1 ∧ q.1 ≤ q.2 ∧ q.2 ≤ d := by
  induction L with
  | nil =>
    intro cur h0 h1 h2 _ q hq
    simp only [mergeOverlapping, List.mem_singleton] at hq
    exact hq ▸ ⟨h0, h1, h2⟩
  | cons p rest ih =>
    intro cur h0 h1 h2 hL q hq
    obtain ⟨ps, pe⟩ := cur
    obtain ⟨s, e⟩ := p
    obtain ⟨hp0, hp1, hp2⟩ := hL (s, e) (List.mem_cons_self _ _)
    have hrest := fun r hr => hL r (List.mem_cons_of_mem _ hr)
    by_cases h : s ≤ pe
    · rw [show mergeOverlapping (ps, pe) ((s, e) :: rest) =
          mergeOverlapping (ps, max pe e) rest by simp [mergeOverlapping, h]] at hq
      exact ih (ps, max pe e) h0 (le_trans h1 (le_max_left _ _))
        (max_le h2 hp2) hrest q hq
    · rw [show mergeOverlapping (ps, pe) ((s, e) :: rest) =
          (ps, pe) :: mergeOverlapping (s, e) rest by simp [mergeOverlapping, h]] at hq
      rcases List.mem_cons.mp hq with rfl | hq
      · exact ⟨h0, h1, h2⟩
      · exact ih (s, e) hp0 hp1 hp2 hrest q hq

/-- Auxiliary: internal gaps plus the trailing gap telescope to the duration
minus the chunk end and the lengths of the remaining chunks. -/
theorem gaps_trail_sum {d : ℚ} :
    ∀ (ms : List (ℚ × ℚ)) (m : ℚ × ℚ),
      (m :: ms).Chain' (fun p q => p.2 < q.1) →
      (∀ p ∈ m :: ms, p.2 ≤ d) →
      ((((m :: ms).zip ms).filterMap (fun pq =>
          if 0 < pq.2.1 - pq.1.2 then some (pq.2.1 - pq.1.2) else none)).sum +
        (if ((m :: ms).getLastD (0, 0)).2 < d
          then d - ((m :: ms).getLastD (0, 0)).2 else 0)) =
      d - m.2 - (ms.map (fun p => p.2 - p.1)).sum := by
  intro ms
  induction ms with
  | nil =>
    intro m _ hd
    have hm : m.2 ≤ d := hd m (List.mem_cons_self _ _)
    have hzip : (([m] : List (ℚ × ℚ)).zip ([] : List (ℚ × ℚ))) = [] := rfl
    have hlast : (([m] : List (ℚ × ℚ)).getLastD (0, 0)) = m := rfl
    rw [hzip, hlast]
    simp only [List.filterMap_nil, List.sum_nil, List.map_nil, zero_add,
      sub_zero]
    rcases lt_or_eq_of_le hm with h | h
    · rw [if_pos h]
    · rw [if_neg (by rw [h]; exact lt_irrefl d), h]; ring
  | cons m2 ms2 ih =>
    intro m hchain hd
    have hpair := List.chain'_cons.mp hchain
    have hgap : 0 < m2.1 - m.2 := by linarith [hpair.1]
    have ihm := ih m2 hpair.2 (fun p hp => hd p (List.mem_cons_of_mem _ hp))
    have hzip : ((m :: m2 :: ms2).zip (m2 :: ms2)) =
        (m, m2) :: ((m2 :: ms2).zip ms2) := rfl
    have hlast : ((m :: m2 :: ms2).getLastD (0, 0)) =
        ((m2 :: ms2).getLastD (0, 0)) := rfl
    rw [hzip, hlast, List.filterMap_cons]
    simp only [if_pos hgap, List.sum_cons, List.map_cons]
    linarith [ihm]

/-- Auxiliary: a disjoint-sorted chain of valid intervals is pairwise
disjoint-sorted. -/
theorem chain_disj_pairwise :
    ∀ L : List (ℚ × ℚ), (∀ p ∈ L, p.1 ≤ p.2) →
      L.Chain' (fun p q => p.2 ≤ q.1) →
      L.Pairwise (fun p q => p.2 ≤ q.1) := by
  intro L
  induction L with
  | nil => intro _ _; exact List.Pairwise.nil
  | cons p rest ih =>
    intro hv hc
    have hrestv : ∀ q ∈ rest, q.1 ≤ q.2 :=
      fun q hq => hv q (List.mem_cons_of_mem _ hq)
    have hrest := ih hrestv (List.Chain'.tail hc)
    refine List.pairwise_cons.mpr ⟨?_, hrest⟩
    intro q hq
    cases rest with
    | nil => simp at hq
    | cons r rest2 =>
      have hpr : p.2 ≤ r.1 := (List.chain'_cons.mp hc).1
      rcases List.mem_cons.mp hq with rfl | hq2
      · exact hpr
      · have := (List.pairwise_cons.mp hrest).1 q hq2
        have hr : r.1 ≤ r.2 := hrestv r (List.mem_cons_self _ _)
        linarith

/-- Auxiliary: lexPairLe is transitive. -/
theorem lexPairLe_trans : ∀ p q r : ℚ × ℚ,
    lexPairLe p q → lexPairLe q r → lexPairLe p r := by
  intro p q r hpq hqr
  simp only [lexPairLe, decide_eq_true_eq] at *
  rcases hpq with h | ⟨h, h'⟩ <;> rcases hqr with g | ⟨g, g'⟩
  · exact Or.inl (lt_trans h g)
  · exact Or.inl (g ▸ h)
  · exact Or.inl (h ▸ g)
  · exact Or.inr ⟨h.trans g, h'.trans g'⟩

/-- Auxiliary: lexPairLe is total. -/
theorem lexPairLe_total : ∀ p q : ℚ × ℚ,
    lexPairLe p q || lexPairLe q p := by
  intro p q
  simp only [lexPairLe, Bool.or_eq_true, decide_eq_true_eq]
  rcases lt_trichotomy p.1 q.1 with h | h | h
  · exact Or.inl (Or.inl h)
  · rcases le_total p.2 q.2 with h2 | h2
    · exact Or.inl (Or.inr ⟨h, h2⟩)
    · exact Or.inr (Or.inr ⟨h.symm, h2⟩)
  · exact Or.inr (Or.inl h)

/-- Auxiliary: a pairwise disjoint-sorted valid list is lexicographically
sorted. -/
theorem pairwise_disj_lex {L : List (ℚ × ℚ)} (hv : ∀ p ∈ L, p.1 ≤ p.2)
    (h : L.Pairwise (fun p q => p.2 ≤ q.1)) :
    L.Pairwise (fun p q => lexPairLe p q = true) := by
  refine h.imp_of_mem ?_
  intro p q hp hq hpq
  simp only [lexPairLe, decide_eq_true_eq]
  rcases lt_or_le p.1 q.1 with h1 | h1
  · exact Or.inl h1
  · have hvp := hv p hp
    have hvq := hv q hq
    have : p.1 = q.1 := le_antisymm (by linarith) h1
    exact Or.inr ⟨this, by linarith⟩

/-- Auxiliary: sorting the concatenation of two sorted lists is their
two-pointer merge. -/
theorem mergeSort_eq_merge (A B : List (ℚ × ℚ))
    (hA : A.Pairwise (fun p q => lexPairLe p q = true))
    (hB : B.Pairwise (fun p q => lexPairLe p q = true)) :
    (A ++ B).mergeSort lexPairLe = List.merge A B lexPairLe := by
  refine List.Perm.eq_of_sorted ?_
    (List.sorted_mergeSort lexPairLe_trans lexPairLe_total _)
    (List.sorted_merge lexPairLe_trans lexPairLe_total A B hA hB)
    ((List.mergeSort_perm _ _).trans (List.merge_perm_append _).symm)
  intro p q _ _ h1 h2
  simp only [lexPairLe, decide_eq_true_eq] at h1 h2
  have hfst : p.1 = q.1 := by
    rcases h1 with h | ⟨h, -⟩ <;> rcases h2 with g | ⟨g, -⟩ <;> linarith
  have hsnd : p.2 = q.2 := by
    rcases h1 with h | ⟨-, h⟩ <;> rcases h2 with g | ⟨-, g⟩ <;> linarith
  exact Prod.ext hfst hsnd

/-- Auxiliary: positive-part of a difference as the source writes it. -/
theorem ite_lt_eq_max (u v : ℚ) : (if u < v then v - u else 0) = max 0 (v - u) := by
  rcases le_or_lt v u with h | h <;> simp [max_def] <;> split_ifs <;> linarith

/-- Key identity: under the Segmenter invariants and containment in
[0, d], the total silence reported by the pure silence computation plus the
two talk times minus the overlap equals the duration exactly. -/
theorem silencePure_total (a b : List SpeechSegment) (d : ℚ)
    (ha1 : ∀ s ∈ a, 0 ≤ s.start_sec ∧ s.start_sec ≤ s.end_sec ∧ s.end_sec ≤ d)
    (ha2 : a.Chain' (fun s t => s.end_sec ≤ t.start_sec))
    (hb1 : ∀ s ∈ b, 0 ≤ s.start_sec ∧ s.start_sec ≤ s.end_sec ∧ s.end_sec ≤ d)
    (hb2 : b.Chain' (fun s t => s.end_sec ≤ t.start_sec)) :
    (silencePure a b d).total + ((a.map SpeechSegment.duration_sec).sum +
      (b.map SpeechSegment.duration_sec).sum - compute_overlap a b) = d := by
  have hvA : ∀ p ∈ a.map (fun s => (s.start_sec, s.end_sec)), p.1 ≤ p.2 := by
    intro p hp
    obtain ⟨s, hs, rfl⟩ := List.mem_map.mp hp
    exact (ha1 s hs).2.1
  have hvB : ∀ p ∈ b.map (fun s => (s.start_sec, s.end_sec)), p.1 ≤ p.2 := by
    intro p hp
    obtain ⟨s, hs, rfl⟩ := List.mem_map.mp hp
    exact (hb1 s hs).2.1
  have hpwA := chain_disj_pairwise _ hvA
    ((List.chain'_map _).mpr (by simpa using ha2))
  have hpwB := chain_disj_pairwise _ hvB
    ((List.chain'_map _).mpr (by simpa using hb2))
  have hmerge := mergeSort_eq_merge _ _ (pairwise_disj_lex hvA hpwA)
    (pairwise_disj_lex hvB hpwB)
  have hbd : ∀ p ∈ List.merge (a.map (fun s => (s.start_sec, s.end_sec)))
      (b.map (fun s => (s.start_sec, s.end_sec))) lexPairLe,
      0 ≤ p.1 ∧ p.1 ≤ p.2 ∧ p.2 ≤ d := by
    intro p hp
    rcases List.mem_merge.mp hp with h | h <;>
      obtain ⟨s, hs, rfl⟩ := List.mem_map.mp h
    · exact ⟨(ha1 s hs).1, (ha1 s hs).2.1, (ha1 s hs).2.2⟩
    · exact ⟨(hb1 s hs).1, (hb1 s hs).2.1, (hb1 s hs).2.2⟩
  -- the talk times are the clipped masses at frontier 0
  have htalkA : ((a.map (fun s => (s.start_sec, s.end_sec))).map (clip 0)).sum =
      (a.map SpeechSegment.duration_sec).sum := by
    rw [List.map_map]
    refine congrArg _ (List.map_congr_left fun s hs => ?_)
    have h := ha1 s hs
    simp only [Function.comp_apply, clip, SpeechSegment.duration_sec]
    rw [max_eq_left h.1, max_eq_right (by linarith [h.2.1] : (0:ℚ) ≤ s.end_sec - s.start_sec)]
  have htalkB : ((b.map (fun s => (s.start_sec, s.end_sec))).map (clip 0)).sum =
      (b.map SpeechSegment.duration_sec).sum := by
    rw [List.map_map]
    refine congrArg _ (List.map_congr_left fun s hs => ?_)
    have h := hb1 s hs
    simp only [Function.comp_apply, clip, SpeechSegment.duration_sec]
    rw [max_eq_left h.1, max_eq_right (by linarith [h.2.1] : (0:ℚ) ≤ s.end_sec - s.start_sec)]
  -- the source overlap is the clipped intersection mass at frontier 0
  have hover : overlapClip 0 (a.map (fun s => (s.start_sec, s.end_sec)))
      (b.map (fun s => (s.start_sec, s.end_sec))) = compute_overlap a b := by
    unfold overlapClip compute_overlap
    rw [List.map_map]
    refine congrArg _ (List.map_congr_left fun sa hsa => ?_)
    simp only [Function.comp_apply]
    rw [List.map_map]
    refine congrArg _ (List.map_congr_left fun sb hsb => ?_)
    simp only [Function.comp_apply, clip]
    rw [ite_lt_eq_max]
    have h0 : (0:ℚ) ≤ max sa.start_sec sb.start_sec :=
      le_trans (ha1 sa hsa).1 (le_max_left _ _)
    rw [max_eq_left h0]
  -- the union mass
  have hsweep := sweep_merge (a.map (fun s => (s.start_sec, s.end_sec)))
    (b.map (fun s => (s.start_sec, s.end_sec))) 0 hpwA hpwB hvA hvB
  cases hM : List.merge (a.map (fun s => (s.start_sec, s.end_sec)))
      (b.map (fun s => (s.start_sec, s.end_sec))) lexPairLe with
  | nil =>
    have hperm := (@List.merge_perm_append _ lexPairLe
      (a.map (fun s => (s.start_sec, s.end_sec)))
      (b.map (fun s => (s.start_sec, s.end_sec)))).symm
    rw [hM] at hperm
    have hnil := hperm.eq_nil
    rw [List.append_eq_nil] at hnil
    have ha0 : a = [] := List.map_eq_nil_iff.mp hnil.1
    have hb0 : b = [] := List.map_eq_nil_iff.mp hnil.2
    subst ha0; subst hb0
    simp [silencePure, compute_overlap]
  | cons first rest =>
    have hfirst := hbd first (hM ▸ List.mem_cons_self _ _)
    have hrestbd : ∀ p ∈ rest, 0 ≤ p.1 ∧ p.1 ≤ p.2 ∧ p.2 ≤ d :=
      fun p hp => hbd p (hM ▸ List.mem_cons_of_mem _ hp)
    have hrestv : ∀ p ∈ rest, p.1 ≤ p.2 := fun p hp => (hrestbd p hp).2.1
    have hsil : silencePure a b d =
        (let merged := mergeOverlapping first rest
        let lead := if 0 < (merged.headD (0, 0)).1 then [(merged.headD (0, 0)).1] else []
        let inner := (merged.zip merged.tail).filterMap (fun pq =>
          if 0 < pq.2.1 - pq.1.2 then some (pq.2.1 - pq.1.2) else none)
        let trail := if (merged.getLastD (0, 0)).2 < d then
          [d - (merged.getLastD (0, 0)).2] else []
        let pauses := lead ++ inner ++ trail
        if pauses = [] then (⟨pauses.sum, 0, 0, 0⟩ : SilenceInfo)
        else ⟨pauses.sum, pauses.length, pauses.sum / pauses.length, npMax pauses⟩) := by
      unfold silencePure
      rw [hmerge, hM]

    have hmbounds := @mergeOverlapping_bounds d rest first
      hfirst.1 hfirst.2.1 hfirst.2.2 hrestbd
    have hmchain := mergeOverlapping_chain rest first
    obtain ⟨me, mtl, hmerged⟩ := mergeOverlapping_head rest first
    have hsum := mergeOverlapping_sum rest first hrestv
    -- silence total is d minus the union mass
    have htot : (silencePure a b d).total +
        ((mergeOverlapping first rest).map (fun p => p.2 - p.1)).sum = d := by
      rw [hsil]
      simp only []
      have hgt := @gaps_trail_sum d mtl (first.1, me)
        (hmerged ▸ hmchain)
        (fun p hp => (hmbounds p (hmerged ▸ hp)).2.2)
      have hfe : 0 ≤ first.1 := hfirst.1
      -- reduce head and pauses sums
      rw [hmerged]
      have hhead : (((first.1, me) :: mtl).headD ((0:ℚ), (0:ℚ))) = (first.1, me) := rfl
      rw [hhead]
      by_cases hpe : (((if 0 < first.1 then [first.1] else []) ++
          ((((first.1, me) :: mtl).zip (((first.1, me) :: mtl).tail)).filterMap (fun pq =>
            if 0 < pq.2.1 - pq.1.2 then some (pq.2.1 - pq.1.2) else none)) ++
          (if ((((first.1, me) :: mtl)).getLastD (0, 0)).2 < d then
            [d - ((((first.1, me) :: mtl)).getLastD (0, 0)).2] else [])) : List ℚ) = []
      · rw [if_pos hpe]
        have := congrArg List.sum hpe
        simp only [List.sum_append, List.sum_nil] at this
        have hlead : (if 0 < first.1 then [first.1] else []).sum = first.1 := by
          split_ifs with h
          · simp
          · simp; linarith
        have htrail : (if ((((first.1, me) :: mtl)).getLastD (0, 0)).2 < d then
            [d - ((((first.1, me) :: mtl)).getLastD (0, 0)).2] else []).sum =
            (if ((((first.1, me) :: mtl)).getLastD (0, 0)).2 < d then
              d - ((((first.1, me) :: mtl)).getLastD (0, 0)).2 else 0) := by
          split_ifs <;> simp
        simp only [List.sum_append, hlead, htrail] at this ⊢
        simp only [List.tail_cons] at this hgt ⊢
        simp only [List.map_cons, List.sum_cons]
        linarith [hgt, this]
      · rw [if_neg hpe]
        have hlead : (if 0 < first.1 then [first.1] else []).sum = first.1 := by
          split_ifs with h
          · simp
          · simp; linarith
        have htrail : (if ((((first.1, me) :: mtl)).getLastD (0, 0)).2 < d then
            [d - ((((first.1, me) :: mtl)).getLastD (0, 0)).2] else []).sum =
            (if ((((first.1, me) :: mtl)).getLastD (0, 0)).2 < d then
              d - ((((first.1, me) :: mtl)).getLastD (0, 0)).2 else 0) := by
          split_ifs <;> simp
        simp only [List.sum_append, hlead, htrail, List.tail_cons] at hgt ⊢
        simp only [List.map_cons, List.sum_cons]
        linarith [hgt]
    -- union mass equals talk plus talk minus overlap
    have hunion : ((mergeOverlapping first rest).map (fun p => p.2 - p.1)).sum =
        (a.map SpeechSegment.duration_sec).sum +
          (b.map SpeechSegment.duration_sec).sum - compute_overlap a b := by
      rw [hsum]
      have h1 : clip 0 first = first.2 - first.1 := by
        simp only [clip]
        rw [max_eq_left hfirst.1, max_eq_right (by linarith [hfirst.2.1] :
          (0:ℚ) ≤ first.2 - first.1)]
      have h2 : max (0:ℚ) first.2 = first.2 :=
        max_eq_right (le_trans hfirst.1 hfirst.2.1)
      have hsweep0 : sweep 0 (first :: rest) =
          (first.2 - first.1) + sweep first.2 rest := by
        simp only [sweep, h1, h2]
      rw [hM] at hsweep
      rw [← hsweep0, hsweep, htalkA, htalkB, hover]
    rw [hunion] at htot
    linarith [htot]

/-- C6: for interval lists satisfying the Segmenter invariants and contained
in [0, duration], silence plus both talk times minus overlap is at most the
duration, with equality when the overlap is zero (the identity in fact holds
exactly). -/
theorem silence_talk_overlap_balance (a b : List SpeechSegment) (d : ℚ)
    (la lb : String)
    (ha1 : ∀ s ∈ a, 0 ≤ s.start_sec ∧ s.start_sec ≤ s.end_sec ∧ s.end_sec ≤ d)
    (ha2 : a.Chain' (fun s t => s.end_sec ≤ t.start_sec))
    (hb1 : ∀ s ∈ b, 0 ≤ s.start_sec ∧ s.start_sec ≤ s.end_sec ∧ s.end_sec ≤ d)
    (hb2 : b.Chain' (fun s t => s.end_sec ≤ t.start_sec)) :
    ∃ st, compute_stats a b d la lb = Except.ok st ∧
      st.total_silence_sec + st.speaker_a.total_talk_time +
        st.speaker_b.total_talk_time - st.total_overlap_sec ≤ d ∧
      (st.total_overlap_sec = 0 →
        st.total_silence_sec + st.speaker_a.total_talk_time +
          st.speaker_b.total_talk_time - st.total_overlap_sec = d) := by
  have key := silencePure_total a b d ha1 ha2 hb1 hb2
  refine ⟨statsPure a b d la lb, compute_stats_eq _ _ _ _ _, ?_, ?_⟩ <;>
    simp only [statsPure] <;>
    [exact le_of_eq (by linarith); exact fun _ => by linarith]

/-- Equation lemmas for the run-length encoding loop. -/
theorem runLength_false_none (rest : List Bool) (i : ℕ) :
    runLength (false :: rest) i none = runLength rest (i + 1) none := rfl

/-- Equation: a speech frame opens a run. -/
theorem runLength_true_none (rest : List Bool) (i : ℕ) :
    runLength (true :: rest) i none = runLength rest (i + 1) (some i) := rfl

/-- Equation: a silent frame closes the open run. -/
theorem runLength_false_some (rest : List Bool) (i st : ℕ) :
    runLength (false :: rest) i (some st) =
      (st, i) :: runLength rest (i + 1) none := rfl

/-- Equation: a speech frame extends the open run. -/
theorem runLength_true_some (rest : List Bool) (i st : ℕ) :
    runLength (true :: rest) i (some st) = runLength rest (i + 1) (some st) := rfl

/-- Auxiliary: the run-length encoding produces valid runs, at or after the
current index (or starting at the open start), separated by at least one
silent frame. -/
theorem runLength_spec : ∀ (l : List Bool) (i : ℕ),
    ((∀ p ∈ runLength l i none, i ≤ p.1 ∧ p.1 < p.2) ∧
      (runLength l i none).Chain' (fun p q => p.2 < q.1)) ∧
    (∀ st : ℕ, st < i →
      (∀ p ∈ runLength l i (some st), st ≤ p.1 ∧ p.1 < p.2) ∧
        (runLength l i (some st)).Chain' (fun p q => p.2 < q.1)) := by
  intro l
  induction l with
  | nil =>
    intro i
    refine ⟨⟨by simp [runLength], by simp [runLength]⟩, ?_⟩
    intro st hst
    refine ⟨?_, by simp [runLength]⟩
    intro p hp
    simp only [runLength, List.mem_singleton] at hp
    subst hp
    exact ⟨le_refl _, hst⟩
  | cons bt rest ih =>
    intro i
    constructor
    · cases bt
      · refine ⟨?_, ?_⟩
        · intro p hp
          rw [runLength_false_none] at hp
          have := ((ih (i + 1)).1).1 p hp
          exact ⟨by omega, this.2⟩
        · rw [runLength_false_none]
          exact ((ih (i + 1)).1).2
      · refine ⟨?_, ?_⟩
        · intro p hp
          rw [runLength_true_none] at hp
          exact ((ih (i + 1)).2 i (by omega)).1 p hp
        · rw [runLength_true_none]
          exact ((ih (i + 1)).2 i (by omega)).2
    · intro st hst
      cases bt
      · constructor
        · intro p hp
          rw [runLength_false_some] at hp
          rcases List.mem_cons.mp hp with rfl | hp2
          · exact ⟨le_refl _, hst⟩
          · have := ((ih (i + 1)).1).1 p hp2
            exact ⟨by omega, this.2⟩
        · rw [runLength_false_some, List.chain'_cons']
          refine ⟨?_, ((ih (i + 1)).1).2⟩
          intro q hq
          have hq2 : q ∈ runLength rest (i + 1) none :=
            List.mem_of_mem_head? hq
          have := ((ih (i + 1)).1).1 q hq2
          omega
      · constructor
        · intro p hp
          rw [runLength_true_some] at hp
          exact ((ih (i + 1)).2 st (by omega)).1 p hp
        · rw [runLength_true_some]
          exact ((ih (i + 1)).2 st (by omega)).2

/-- Auxiliary: the gap-merging pass keeps valid runs, keeps the open start
as head, and leaves surviving gaps of at least min_silence_frames (and at
least one frame). -/
theorem mergeRuns_spec (msil : ℤ) : ∀ (L : List (ℕ × ℕ)) (cur : ℕ × ℕ),
    (∀ p ∈ cur :: L, p.1 < p.2) →
    (cur :: L).Chain' (fun p q => p.2 < q.1) →
    (∀ p ∈ mergeRuns msil cur L, p.1 < p.2) ∧
      (mergeRuns msil cur L).Chain'
        (fun p q => p.2 < q.1 ∧ msil ≤ (q.1 : ℤ) - (p.2 : ℤ)) ∧
      (∃ e tl, mergeRuns msil cur L = (cur.1, e) :: tl) := by
  intro L
  induction L with
  | nil =>
    intro cur hv _
    refine ⟨?_, by simp [mergeRuns], cur.2, [], by simp [mergeRuns]⟩
    intro p hp
    simp only [mergeRuns, List.mem_singleton] at hp
    exact hp ▸ hv cur (List.mem_cons_self _ _)
  | cons r rest ih =>
    intro cur hv hc
    obtain ⟨ps, pe⟩ := cur
    obtain ⟨s, e⟩ := r
    have hpse : ps < pe := hv (ps, pe) (List.mem_cons_self _ _)
    have hse : s < e := hv (s, e) (List.mem_cons_of_mem _ (List.mem_cons_self _ _))
    have hgap : pe < s := (List.chain'_cons.mp hc).1
    have hcrest : ((s, e) :: rest).Chain' (fun p q => p.2 < q.1) :=
      (List.chain'_cons.mp hc).2
    by_cases h : (s : ℤ) - (pe : ℤ) < msil
    · have heq : mergeRuns msil (ps, pe) ((s, e) :: rest) =
          mergeRuns msil (ps, e) rest := by
        simp [mergeRuns, h]
      have hv2 : ∀ p ∈ (ps, e) :: rest, p.1 < p.2 := by
        intro p hp
        rcases List.mem_cons.mp hp with rfl | hp2
        · show ps < e; omega
        · exact hv p (List.mem_cons_of_mem _ (List.mem_cons_of_mem _ hp2))
      have hc2 : ((ps, e) :: rest).Chain' (fun p q => p.2 < q.1) := by
        cases rest with
        | nil => simp
        | cons r2 rest2 =>
          rw [List.chain'_cons]
          exact ⟨(List.chain'_cons.mp hcrest).1, (List.chain'_cons.mp hcrest).2⟩
      rw [heq]
      exact ih (ps, e) hv2 hc2
    · have heq : mergeRuns msil (ps, pe) ((s, e) :: rest) =
          (ps, pe) :: mergeRuns msil (s, e) rest := by
        simp [mergeRuns, h]
      obtain ⟨hvr, hcr, e', tl, htl⟩ := ih (s, e)
        (fun p hp => hv p (List.mem_cons_of_mem _ hp)) hcrest
      rw [heq]
      refine ⟨?_, ?_, pe, mergeRuns msil (s, e) rest, rfl⟩
      · intro p hp
        rcases List.mem_cons.mp hp with rfl | hp2
        · exact hpse
        · exact hvr p hp2
      · rw [List.chain'_cons']
        refine ⟨?_, hcr⟩
        intro q hq
        rw [htl] at hq
        simp only [List.head?_cons, Option.mem_def, Option.some.injEq] at hq
        rw [← hq]
        exact ⟨hgap, by omega⟩

/-- Auxiliary: the chunk chain upgrades to a pairwise property (dropping
middle chunks only widens gaps). -/
theorem chain_gap_pairwise (msil : ℤ) :
    ∀ L : List (ℕ × ℕ), (∀ p ∈ L, p.1 < p.2) →
      L.Chain' (fun p q => p.2 < q.1 ∧ msil ≤ (q.1 : ℤ) - (p.2 : ℤ)) →
      L.Pairwise (fun p q => p.2 < q.1 ∧ msil ≤ (q.1 : ℤ) - (p.2 : ℤ)) := by
  intro L
  induction L with
  | nil => intro _ _; exact List.Pairwise.nil
  | cons p rest ih =>
    intro hv hc
    have hrest := ih (fun q hq => hv q (List.mem_cons_of_mem _ hq))
      (List.Chain'.tail hc)
    refine List.pairwise_cons.mpr ⟨?_, hrest⟩
    intro q hq
    cases rest with
    | nil => simp at hq
    | cons r rest2 =>
      have hpr := (List.chain'_cons.mp hc).1
      rcases List.mem_cons.mp hq with rfl | hq2
      · exact hpr
      · have hrq := (List.pairwise_cons.mp hrest).1 q hq2
        have hr : r.1 < r.2 :=
          hv r (List.mem_cons_of_mem _ (List.mem_cons_self _ _))
        exact ⟨by omega, by omega⟩

/-- Auxiliary: the frame-level segments of vad._frames_to_segments are
valid, at least min_speech_frames long, and pairwise separated by gaps of
at least min_silence_frames. -/
theorem frames_to_segments_spec (is_speech : List Bool) (msil mspe : ℤ) :
    (∀ p ∈ frames_to_segments is_speech msil mspe,
      p.1 < p.2 ∧ mspe ≤ (p.2 : ℤ) - (p.1 : ℤ)) ∧
    (frames_to_segments is_speech msil mspe).Pairwise
      (fun p q => p.2 < q.1 ∧ msil ≤ (q.1 : ℤ) - (p.2 : ℤ)) := by
  unfold frames_to_segments
  cases hR : runLength is_speech 0 none with
  | nil => simp
  | cons first rest =>
    have hspec := (runLength_spec is_speech 0).1
    rw [hR] at hspec
    have hv : ∀ p ∈ first :: rest, p.1 < p.2 :=
      fun p hp => (hspec.1 p hp).2
    obtain ⟨hmv, hmc, -⟩ := mergeRuns_spec msil rest first hv hspec.2
    have hpw := chain_gap_pairwise msil _ hmv hmc
    constructor
    · intro p hp
      rw [List.mem_filter] at hp
      refine ⟨hmv p hp.1, ?_⟩
      have := hp.2
      rwa [decide_eq_true_eq] at this
    · exact hpw.sublist (List.filter_sublist _)

/-- Auxiliary: scaling a rational inequality by frame_ms/1000. -/
theorem scale_le_scale {fm : ℤ} (hfm : 0 < fm) {u v : ℚ} (h : u ≤ v) :
    u * (fm : ℚ) / 1000 ≤ v * (fm : ℚ) / 1000 := by
  have hfm0 : (0 : ℚ) ≤ (fm : ℚ) := by exact_mod_cast le_of_lt hfm
  have := mul_le_mul_of_nonneg_right h hfm0
  linarith

/-- Auxiliary: the invariants of the second-denominated segments returned
by detect_speech, from the frame-level invariants. -/
theorem mapped_segments_spec (bools : List Bool) (msil mspe fm : ℤ)
    (hfm : 0 < fm) :
    (∀ s ∈ (frames_to_segments bools msil mspe).map (fun p =>
        (⟨(p.1 : ℚ) * (fm : ℚ) / 1000, (p.2 : ℚ) * (fm : ℚ) / 1000⟩ :
          SpeechSegment)), s.start_sec ≤ s.end_sec) ∧
    ((frames_to_segments bools msil mspe).map (fun p =>
        (⟨(p.1 : ℚ) * (fm : ℚ) / 1000, (p.2 : ℚ) * (fm : ℚ) / 1000⟩ :
          SpeechSegment))).Chain' (fun s t => s.end_sec ≤ t.start_sec) ∧
    (∀ s ∈ (frames_to_segments bools msil mspe).map (fun p =>
        (⟨(p.1 : ℚ) * (fm : ℚ) / 1000, (p.2 : ℚ) * (fm : ℚ) / 1000⟩ :
          SpeechSegment)),
      (mspe : ℚ) * (fm : ℚ) / 1000 ≤ s.end_sec - s.start_sec) ∧
    ((frames_to_segments bools msil mspe).map (fun p =>
        (⟨(p.1 : ℚ) * (fm : ℚ) / 1000, (p.2 : ℚ) * (fm : ℚ) / 1000⟩ :
          SpeechSegment))).Chain'
      (fun s t => (msil : ℚ) * (fm : ℚ) / 1000 ≤ t.start_sec - s.end_sec) := by
  obtain ⟨hmem, hpw⟩ := frames_to_segments_spec bools msil mspe
  have hchain := hpw.chain'
  refine ⟨?_, ?_, ?_, ?_⟩
  · intro s hs
    obtain ⟨p, hp, rfl⟩ := List.mem_map.mp hs
    exact scale_le_scale hfm (by exact_mod_cast le_of_lt (hmem p hp).1)
  · rw [List.chain'_map]
    refine hchain.imp ?_
    intro p q hpq
    exact scale_le_scale hfm (by exact_mod_cast le_of_lt hpq.1)
  · intro s hs
    obtain ⟨p, hp, rfl⟩ := List.mem_map.mp hs
    have h1 : (mspe : ℚ) ≤ (p.2 : ℚ) - (p.1 : ℚ) := by
      exact_mod_cast (hmem p hp).2
    have := scale_le_scale hfm h1
    show (mspe : ℚ) * (fm : ℚ) / 1000 ≤
      (p.2 : ℚ) * (fm : ℚ) / 1000 - (p.1 : ℚ) * (fm : ℚ) / 1000
    linarith [this]
  · rw [List.chain'_map]
    refine hchain.imp ?_
    intro p q hpq
    have h1 : (msil : ℚ) ≤ (q.1 : ℚ) - (p.2 : ℚ) := by
      exact_mod_cast hpq.2
    have := scale_le_scale hfm h1
    show (msil : ℚ) * (fm : ℚ) / 1000 ≤
      (q.1 : ℚ) * (fm : ℚ) / 1000 - (p.2 : ℚ) * (fm : ℚ) / 1000
    linarith [this]

/-- C1 (amended): for a positive frame size, every interval list returned by
detect_speech is sorted ascending and pairwise non-overlapping, and every
duration is at least int(min_speech_ms / frame_ms) * frame_ms / 1000 seconds
(the configured minimum rounded down to whole frames, which can be less than
min_speech_ms / 1000 when frame_ms does not divide min_speech_ms). -/
theorem detect_speech_invariants (signal : List ℝ) (sample_rate frame_ms : ℤ)
    (threshold : Option ℝ) (min_speech_ms min_silence_ms : ℤ)
    (segs : List SpeechSegment) (hfm : 0 < frame_ms)
    (h : detect_speech signal sample_rate frame_ms threshold
      min_speech_ms min_silence_ms = Except.ok segs) :
    (∀ s ∈ segs, s.start_sec ≤ s.end_sec) ∧
    segs.Chain' (fun s t => s.end_sec ≤ t.start_sec) ∧
    (∀ s ∈ segs,
      ((pyInt ((min_speech_ms : ℚ) / (frame_ms : ℚ)) : ℚ) * (frame_ms : ℚ)) /
        1000 ≤ s.end_sec - s.start_sec) := by
  simp only [detect_speech] at h
  split at h
  · obtain rfl : segs = [] := by
      simpa using h.symm
    exact ⟨by simp, by simp, by simp⟩
  · split at h
    · obtain rfl : segs = [] := by
        simpa using h.symm
      exact ⟨by simp, by simp, by simp⟩
    · split at h
      · exact absurd h (by simp)
      · obtain rfl : segs = _ := by
          simpa using h.symm
        obtain ⟨h1, h2, h3, h4⟩ := mapped_segments_spec _
          (pyInt ((min_silence_ms : ℚ) / (frame_ms : ℚ)))
          (pyInt ((min_speech_ms : ℚ) / (frame_ms : ℚ))) frame_ms hfm
        exact ⟨h1, h2, h3⟩

/-- C10: for a positive frame size, consecutive intervals returned by
detect_speech are separated by at least
int(min_silence_ms / frame_ms) * frame_ms / 1000 seconds of silence. -/
theorem detect_speech_min_gap (signal : List ℝ) (sample_rate frame_ms : ℤ)
    (threshold : Option ℝ) (min_speech_ms min_silence_ms : ℤ)
    (segs : List SpeechSegment) (hfm : 0 < frame_ms)
    (h : detect_speech signal sample_rate frame_ms threshold
      min_speech_ms min_silence_ms = Except.ok segs) :
    segs.Chain' (fun s t =>
      ((pyInt ((min_silence_ms : ℚ) / (frame_ms : ℚ)) : ℚ) * (frame_ms : ℚ)) /
        1000 ≤ t.start_sec - s.end_sec) := by
  simp only [detect_speech] at h
  split at h
  · obtain rfl : segs = [] := by simpa using h.symm
    simp
  · split at h
    · obtain rfl : segs = [] := by simpa using h.symm
      simp
    · split at h
      · exact absurd h (by simp)
      · obtain rfl : segs = _ := by simpa using h.symm
        exact (mapped_segments_spec _
          (pyInt ((min_silence_ms : ℚ) / (frame_ms : ℚ)))
          (pyInt ((min_speech_ms : ℚ) / (frame_ms : ℚ))) frame_ms hfm).2.2.2

/-- Concrete evaluation of detect_speech: 180 one-samples at 1000 Hz with
an explicit threshold of 0.5 give one 6-frame segment of 0.18 s. -/
theorem detect_eval_180 :
    detect_speech (List.replicate 180 (1 : ℝ)) 1000 30 (some (1 / 2)) 200 300 =
      Except.ok [⟨0, 9 / 50⟩] := by
  have hrms : frameRms (List.replicate 30 (1 : ℝ)) = 1 := by
    unfold frameRms
    rw [List.map_replicate]
    norm_num [List.sum_replicate]
  have hdec : (decide ((1 : ℝ) / 2 < 1)) = true := by
    rw [decide_eq_true_eq]; norm_num
  simp only [detect_speech, List.length_replicate]
  norm_num [pyInt]
  rw [show Int.fdiv 180 30 = 6 by decide]
  norm_num
  rw [show Int.toNat 6 = 6 from rfl, show Int.toNat 30 = 30 from rfl,
    show List.range 6 = [0, 1, 2, 3, 4, 5] from rfl]
  simp only [List.map_cons, List.map_nil, Function.comp_apply, Function.comp]
  norm_num [hrms, hdec]
  rw [show frames_to_segments [true, true, true, true, true, true] 10 6 =
    [(0, 6)] by decide]
  norm_num

/-- C1 counterexample: with min_speech_ms = 200 and frame_ms = 30 the
segment [0, 0.18] survives (6 frames = int(200/30) frames), so its duration
is strictly below min_speech_ms expressed in seconds. -/
theorem min_speech_duration_counterexample :
    ∃ segs, detect_speech (List.replicate 180 (1 : ℝ)) 1000 30 (some (1 / 2))
        200 300 = Except.ok segs ∧
      ∃ s ∈ segs, s.end_sec - s.start_sec < 200 / 1000 := by
  refine ⟨[⟨0, 9 / 50⟩], detect_eval_180, ⟨0, 9 / 50⟩, ?_, by norm_num⟩
  exact List.mem_singleton_self _

/-- Witness: detect_speech_invariants applied at the concrete 180-sample
input. -/
theorem detect_speech_invariants_witness :
    (∀ s ∈ [(⟨0, 9 / 50⟩ : SpeechSegment)], s.start_sec ≤ s.end_sec) ∧
    ([(⟨0, 9 / 50⟩ : SpeechSegment)]).Chain'
      (fun s t => s.end_sec ≤ t.start_sec) ∧
    (∀ s ∈ [(⟨0, 9 / 50⟩ : SpeechSegment)],
      ((pyInt ((200 : ℚ) / (30 : ℚ)) : ℚ) * (30 : ℚ)) / 1000 ≤
        s.end_sec - s.start_sec) :=
  detect_speech_invariants (List.replicate 180 (1 : ℝ)) 1000 30 (some (1 / 2))
    200 300 [⟨0, 9 / 50⟩] (by decide) detect_eval_180

/-- Witness: detect_speech_min_gap applied at the concrete 180-sample
input. -/
theorem detect_speech_min_gap_witness :
    ([(⟨0, 9 / 50⟩ : SpeechSegment)]).Chain' (fun s t =>
      ((pyInt ((300 : ℚ) / (30 : ℚ)) : ℚ) * (30 : ℚ)) / 1000 ≤
        t.start_sec - s.end_sec) :=
  detect_speech_min_gap (List.replicate 180 (1 : ℝ)) 1000 30 (some (1 / 2))
    200 300 [⟨0, 9 / 50⟩] (by decide) detect_eval_180

/-- Witness: response_times_exactly_positive_gaps applied at a concrete
two-turn sequence. -/
theorem response_times_witness :
    compute_response_times [⟨"A", 0, 2⟩, ⟨"B", 3, 5⟩] "A" =
      (responseSamplesSpec [⟨"A", 0, 2⟩, ⟨"B", 3, 5⟩] "A",
        responseSamplesSpec [⟨"A", 0, 2⟩, ⟨"B", 3, 5⟩] "B") :=
  response_times_exactly_positive_gaps [⟨"A", 0, 2⟩, ⟨"B", 3, 5⟩] "A" "B"
    (by decide) (by decide)

/-- Witness: silence_talk_overlap_balance applied at concrete disjoint
segments in [0, 4]. -/
theorem silence_talk_overlap_witness :
    ∃ st, compute_stats [⟨0, 1⟩] [⟨2, 3⟩] 4 "A" "B" = Except.ok st ∧
      st.total_silence_sec + st.speaker_a.total_talk_time +
        st.speaker_b.total_talk_time - st.total_overlap_sec ≤ 4 ∧
      (st.total_overlap_sec = 0 →
        st.total_silence_sec + st.speaker_a.total_talk_time +
          st.speaker_b.total_talk_time - st.total_overlap_sec = 4) :=
  silence_talk_overlap_balance [⟨0, 1⟩] [⟨2, 3⟩] 4 "A" "B"
    (by decide) (by simp) (by decide) (by simp)

/-- Witness: empty_segments_full_pause applied at duration 10. -/
theorem empty_segments_full_pause_witness :
    (∃ st, compute_stats [] [] (10 : ℚ) "A" "B" = Except.ok st ∧
      st.num_pauses = 1 ∧ st.total_silence_sec = 10 ∧
      st.avg_pause_duration = 10 ∧ st.longest_pause = 10 ∧
      st.speaker_a.total_talk_time = 0 ∧ st.speaker_b.total_talk_time = 0 ∧
      avg_turn_duration st.speaker_a = 0 ∧ median_turn_duration st.speaker_a = 0 ∧
      min_turn_duration st.speaker_a = 0 ∧ max_turn_duration st.speaker_a = 0 ∧
      avg_response_time st.speaker_a = 0 ∧ median_response_time st.speaker_a = 0 ∧
      std_response_time st.speaker_a = 0 ∧ min_response_time st.speaker_a = 0 ∧
      max_response_time st.speaker_a = 0 ∧ avg_yielding_latency st.speaker_a = 0 ∧
      median_yielding_latency st.speaker_a = 0 ∧ std_yielding_latency st.speaker_a = 0 ∧
      min_yielding_latency st.speaker_a = 0 ∧ max_yielding_latency st.speaker_a = 0 ∧
      avg_turn_duration st.speaker_b = 0 ∧ median_turn_duration st.speaker_b = 0 ∧
      min_turn_duration st.speaker_b = 0 ∧ max_turn_duration st.speaker_b = 0 ∧
      avg_response_time st.speaker_b = 0 ∧ median_response_time st.speaker_b = 0 ∧
      std_response_time st.speaker_b = 0 ∧ min_response_time st.speaker_b = 0 ∧
      max_response_time st.speaker_b = 0 ∧ avg_yielding_latency st.speaker_b = 0 ∧
      median_yielding_latency st.speaker_b = 0 ∧ std_yielding_latency st.speaker_b = 0 ∧
      min_yielding_latency st.speaker_b = 0 ∧ max_yielding_latency st.speaker_b = 0) ∧
    (∃ st0, compute_stats [] [] 0 "A" "B" = Except.ok st0 ∧ st0.num_pauses = 0) :=
  empty_segments_full_pause "A" "B" 10 (by decide)
